import Mathlib

/-!
Verification of the conversion-graph core of `conversion_wiz`
(`src/conversion_wiz/src/lib.rs`).

Modelling choices:
* `f64` values are modelled as exact rationals (`ℚ`); the source only ever
  multiplies, adds, divides and negates them, and compares them with `==`.
* `std::collections::HashMap` is modelled as an association list with
  first-match lookup, replace-in-place-or-append insertion, and
  insertion-order iteration (a deterministic refinement of the map's
  unspecified iteration order).
* The BFS `while` loop and the parent-chain walk are modelled with explicit
  fuel.  Every dequeued node was enqueued exactly once (guarded by the
  `visited` check), so `bfsFuel` — one more than the number of adjacency
  entries plus nodes — always suffices, and the fuel-exhaustion branch is
  unreachable; likewise the parent chain is acyclic and shorter than the
  parent table, so `parents.length + 1` steps suffice for the walk.
* Rust methods taking `&mut self` and returning `Result<T, E>` become
  functions returning `Except ConversionError T × ConversionGraph`, where
  the second component is the post-state (also on error, since `add_unit`
  mutates before it finishes validating).
-/

namespace ConversionWiz

/-- Association list standing in for `HashMap<String, α>`. -/
abbrev AssocList (α : Type) := List (String × α)

/-- `HashMap::get`. -/
def alistFind {α : Type} : AssocList α → String → Option α
  | [], _ => none
  | (k', v) :: rest, k => if k' = k then some v else alistFind rest k

/-- `HashMap::insert` (replaces the value when the key is present). -/
def alistInsert {α : Type} : AssocList α → String → α → AssocList α
  | [], k, v => [(k, v)]
  | (k', v') :: rest, k, v =>
      if k' = k then (k, v) :: rest else (k', v') :: alistInsert rest k v

/-- `HashMap::contains_key`. -/
def alistContains {α : Type} (m : AssocList α) (k : String) : Bool :=
  (alistFind m k).isSome

/-- `HashMap::entry(k).or_insert(v)`. -/
def alistOrInsert {α : Type} (m : AssocList α) (k : String) (v : α) : AssocList α :=
  if alistContains m k then m else m ++ [(k, v)]

/-- `enum ConversionError` from `lib.rs`. -/
inductive ConversionError where
  | EmptyUnitName : ConversionError
  | EmptyAlias : ConversionError
  | DuplicateUnit : String → ConversionError
  | DuplicateAlias : String → ConversionError
  | UnitNotFound : String → ConversionError
  | ConversionRateZero : ConversionError
  | ConversionRateBothValues : ConversionError
  | ConversionPathNotFound : String → String → ConversionError
  | MissingConversionFactor : ConversionError
deriving DecidableEq

/-- `struct Unit` from `lib.rs`. -/
structure Unit where
  name : String
  aliases : List String
  intermediate : Bool
deriving DecidableEq

/-- `Unit::new`. -/
def Unit.new (name : String) (aliases : List String) (intermediate : Bool) :
    Except ConversionError Unit :=
  if name = "" then .error .EmptyUnitName
  else if aliases.any (fun a => a = "") then .error .EmptyAlias
  else
    let aliases' := if name ∈ aliases then aliases else aliases ++ [name]
    .ok { name := name, aliases := aliases', intermediate := intermediate }

/-- `Unit::format_string`. -/
def Unit.format_string (u : Unit) : String :=
  if u.aliases = [] then u.name
  else u.name ++ " (" ++ String.intercalate ", " u.aliases ++ ")"

/-- `struct ConversionFactor`. -/
structure ConversionFactor where
  scale : ℚ
  offset : ℚ
deriving DecidableEq

/-- `struct ConversionGraph`. -/
structure ConversionGraph where
  name_to_units : AssocList Unit
  aliases_to_name : AssocList String
  edges : AssocList (AssocList ConversionFactor)
deriving DecidableEq

/-- `ConversionGraph::new`. -/
def ConversionGraph.new : ConversionGraph :=
  { name_to_units := [], aliases_to_name := [], edges := [] }

/-- The alias-insertion loop of `ConversionGraph::add_unit`: each alias is
checked against the alias index and then inserted at once, so a later
duplicate leaves the earlier insertions behind. -/
def insertAliases : ConversionGraph → String → List String →
    Except ConversionError PUnit.{1} × ConversionGraph
  | g, _, [] => (.ok ⟨⟩, g)
  | g, name, a0 :: rest =>
      if alistContains g.aliases_to_name a0 then
        (.error (.DuplicateAlias a0), g)
      else
        insertAliases
          { g with aliases_to_name := alistInsert g.aliases_to_name a0 name }
          name rest

/-- `ConversionGraph::add_unit`. -/
def ConversionGraph.add_unit (g : ConversionGraph) (name : String)
    (aliases : List String) (intermediate : Bool) :
    Except ConversionError PUnit.{1} × ConversionGraph :=
  if name = "" then (.error .EmptyUnitName, g)
  else if alistContains g.name_to_units name then
    (.error (.DuplicateUnit name), g)
  else
    match Unit.new name aliases intermediate with
    | .error e => (.error e, g)
    | .ok u =>
        match insertAliases g name u.aliases with
        | (.error e, g') => (.error e, g')
        | (.ok _, g') =>
            (.ok ⟨⟩,
             { g' with name_to_units := alistOrInsert g'.name_to_units name u })

/-- `ConversionGraph::contains_unit`. -/
def ConversionGraph.contains_unit (g : ConversionGraph) (name : String) : Bool :=
  alistContains g.aliases_to_name name

/-- `self.edges.get(a).and_then(|m| m.get(b))`. -/
def edgeLookup (edges : AssocList (AssocList ConversionFactor)) (a b : String) :
    Option ConversionFactor :=
  (alistFind edges a).bind (fun inner => alistFind inner b)

/-- The edge-table update performed by a successful `add_edge`: ensure both
adjacency entries exist, then store the factor and its inverse. -/
def insertEdgePair (edges : AssocList (AssocList ConversionFactor))
    (from_name to_name : String) (scale offset : ℚ) :
    AssocList (AssocList ConversionFactor) :=
  let edges1 := alistOrInsert edges from_name []
  let edges2 := alistOrInsert edges1 to_name []
  let edges3 := alistInsert edges2 from_name
    (alistInsert ((alistFind edges2 from_name).getD []) to_name
      { scale := scale, offset := offset })
  alistInsert edges3 to_name
    (alistInsert ((alistFind edges3 to_name).getD []) from_name
      { scale := 1 / scale, offset := -offset })

/-- `ConversionGraph::add_edge`. -/
def ConversionGraph.add_edge (g : ConversionGraph) (from_ to_ : String)
    (scale offset : ℚ) : Except ConversionError PUnit.{1} × ConversionGraph :=
  if scale = 0 then (.error .ConversionRateZero, g)
  else if scale ≠ 1 ∧ offset ≠ 0 then (.error .ConversionRateBothValues, g)
  else
    match alistFind g.aliases_to_name from_ with
    | none => (.error (.UnitNotFound from_), g)
    | some from_name =>
        match alistFind g.aliases_to_name to_ with
        | none => (.error (.UnitNotFound to_), g)
        | some to_name =>
            (.ok ⟨⟩,
             { g with edges := insertEdgePair g.edges from_name to_name scale offset })

/-- `ConversionGraph::add_scale_edge`. -/
def ConversionGraph.add_scale_edge (g : ConversionGraph) (from_ to_ : String)
    (scale : ℚ) : Except ConversionError PUnit.{1} × ConversionGraph :=
  g.add_edge from_ to_ scale 0

/-- `ConversionGraph::add_offset_edge`. -/
def ConversionGraph.add_offset_edge (g : ConversionGraph) (from_ to_ : String)
    (offset : ℚ) : Except ConversionError PUnit.{1} × ConversionGraph :=
  g.add_edge from_ to_ 1 offset

/-- The neighbour-scan of one BFS step (`for (adj_unit, _) in edges`). -/
def processAdj (cur : String) :
    AssocList ConversionFactor → List String → List String → AssocList String →
    List String × List String × AssocList String
  | [], queue, visited, parents => (queue, visited, parents)
  | (adj, _) :: rest, queue, visited, parents =>
      if adj ∈ visited then processAdj cur rest queue visited parents
      else
        processAdj cur rest (queue ++ [adj]) (adj :: visited)
          (alistInsert parents adj cur)

/-- The BFS `while let Some(current_unit) = queue.pop_front()` loop. -/
def bfsLoop (edges : AssocList (AssocList ConversionFactor)) (to_name : String) :
    Nat → List String → List String → AssocList String → AssocList String
  | 0, _, _, parents => parents
  | _ + 1, [], _, parents => parents
  | fuel + 1, cur :: rest, visited, parents =>
      if cur = to_name then parents
      else
        let next := processAdj cur ((alistFind edges cur).getD []) rest visited parents
        bfsLoop edges to_name fuel next.1 next.2.1 next.2.2

/-- Fuel that dominates the number of BFS dequeues: one more than the number
of adjacency entries plus adjacency-table rows. -/
def bfsFuel (edges : AssocList (AssocList ConversionFactor)) : Nat :=
  (edges.foldl (fun n p => n + 1 + p.2.length) 0) + 1

/-- The parent-chain walk of `convert` (`while let Some(&parent_unit) = ...`),
collecting the factor of each parent→child hop, outermost hop last. -/
def collectFactors (edges : AssocList (AssocList ConversionFactor))
    (parents : AssocList String) :
    Nat → String → List ConversionFactor →
    Except ConversionError (List ConversionFactor)
  | 0, _, stack => .ok stack
  | fuel + 1, current, stack =>
      match alistFind parents current with
      | none => .ok stack
      | some parent =>
          match edgeLookup edges parent current with
          | none => .error .MissingConversionFactor
          | some factor => collectFactors edges parents fuel parent (factor :: stack)

/-- The final `while let Some(factor) = stack.pop()` loop: apply the factors
in source-to-target order, `value * scale + offset` each hop. -/
def applyFactors (stack : List ConversionFactor) (value : ℚ) : ℚ :=
  stack.foldl (fun v f => v * f.scale + f.offset) value

/-- `ConversionGraph::convert`. -/
def ConversionGraph.convert (g : ConversionGraph) (from_ to_ : String) (value : ℚ) :
    Except ConversionError ℚ :=
  match alistFind g.aliases_to_name from_ with
  | none => .error (.UnitNotFound from_)
  | some from_name =>
      match alistFind g.aliases_to_name to_ with
      | none => .error (.UnitNotFound to_)
      | some to_name =>
          if from_name = to_name then .ok value
          else
            let parents := bfsLoop g.edges to_name (bfsFuel g.edges)
              [from_name] [from_name] []
            if alistContains parents to_name then
              match collectFactors g.edges parents (parents.length + 1) to_name [] with
              | .error e => .error e
              | .ok stack => .ok (applyFactors stack value)
            else .error (.ConversionPathNotFound from_ to_)

/-- `ConversionGraph::units_formatted`. -/
def ConversionGraph.units_formatted (g : ConversionGraph) : List String :=
  (g.name_to_units.filter (fun p => !p.2.intermediate)).map
    (fun p => p.2.format_string)

/-- One public mutating call, for stating invariants over all reachable
graph states. -/
inductive Op where
  | addUnit : String → List String → Bool → Op
  | addEdge : String → String → ℚ → ℚ → Op
  | addScaleEdge : String → String → ℚ → Op
  | addOffsetEdge : String → String → ℚ → Op

/-- Run one public call, keeping the post-state whether or not it failed. -/
def runOp (g : ConversionGraph) : Op → ConversionGraph
  | .addUnit n a i => (g.add_unit n a i).2
  | .addEdge f t s o => (g.add_edge f t s o).2
  | .addScaleEdge f t s => (g.add_scale_edge f t s).2
  | .addOffsetEdge f t o => (g.add_offset_edge f t o).2

/-- All graph states reachable through the public interface are
`runOps ops` for some call sequence `ops`. -/
def runOps (ops : List Op) : ConversionGraph :=
  ops.foldl runOp ConversionGraph.new

/-- `b` is a key of the adjacency row of `a` (one BFS hop). -/
def Adj (edges : AssocList (AssocList ConversionFactor)) (a b : String) : Prop :=
  b ∈ ((alistFind edges a).getD []).map Prod.fst

/-- Connectivity in the edge table, as traversed by the BFS. -/
def Reachable (edges : AssocList (AssocList ConversionFactor)) :
    String → String → Prop :=
  Relation.ReflTransGen (Adj edges)

/-- The three-unit graph of the composed-path claim: units `A`, `B`, `C`. -/
def graphC1units : ConversionGraph :=
  (((ConversionGraph.new.add_unit "A" [] false).2.add_unit "B" [] false).2.add_unit
    "C" [] false).2

/-- The three-unit graph of the composed-path claim, with edges
`A→B = (s1, 0)` and `B→C = (1, o2)`. -/
def graphC1 (s1 o2 : ℚ) : ConversionGraph :=
  ((graphC1units.add_edge "A" "B" s1 0).2.add_edge "B" "C" 1 o2).2

instance {e a : Type} [DecidableEq e] [DecidableEq a] : DecidableEq (Except e a) :=
  fun x y =>
    match x, y with
    | .ok u, .ok v =>
        if h : u = v then isTrue (by rw [h])
        else isFalse (fun hc => h (Except.ok.inj hc))
    | .error u, .error v =>
        if h : u = v then isTrue (by rw [h])
        else isFalse (fun hc => h (Except.error.inj hc))
    | .ok _, .error _ => isFalse (fun hc => Except.noConfusion hc)
    | .error _, .ok _ => isFalse (fun hc => Except.noConfusion hc)

/-! ### Association-list lemmas -/

theorem alistFind_insert_self {α : Type} (m : AssocList α) (k : String) (v : α) :
    alistFind (alistInsert m k v) k = some v := by
  induction m with
  | nil => simp [alistInsert, alistFind]
  | cons p rest ih =>
      obtain ⟨k', v'⟩ := p
      by_cases h : k' = k
      · simp [alistInsert, h, alistFind]
      · simp [alistInsert, h, alistFind, ih]

theorem alistFind_insert_ne {α : Type} (m : AssocList α) (k : String) (v : α)
    (k' : String) (h : k' ≠ k) :
    alistFind (alistInsert m k v) k' = alistFind m k' := by
  induction m with
  | nil =>
      show (if k = k' then some v else none) = none
      rw [if_neg (Ne.symm h)]
  | cons p rest ih =>
      obtain ⟨a, b⟩ := p
      by_cases hak : a = k
      · subst hak
        show alistFind (if a = a then (a, v) :: rest else (a, b) :: alistInsert rest a v) k'
          = alistFind ((a, b) :: rest) k'
        rw [if_pos rfl]
        show (if a = k' then some v else alistFind rest k')
          = (if a = k' then some b else alistFind rest k')
        rw [if_neg (Ne.symm h), if_neg (Ne.symm h)]
      · show alistFind (if a = k then (k, v) :: rest else (a, b) :: alistInsert rest k v) k'
          = alistFind ((a, b) :: rest) k'
        rw [if_neg hak]
        show (if a = k' then some b else alistFind (alistInsert rest k v) k')
          = (if a = k' then some b else alistFind rest k')
        by_cases hak' : a = k'
        · rw [if_pos hak', if_pos hak']
        · rw [if_neg hak', if_neg hak', ih]

theorem alistFind_append_right {α : Type} (m₁ m₂ : AssocList α) (k : String)
    (h : alistFind m₁ k = none) :
    alistFind (m₁ ++ m₂) k = alistFind m₂ k := by
  induction m₁ with
  | nil => rfl
  | cons p rest ih =>
      obtain ⟨a, b⟩ := p
      have hh : (if a = k then some b else alistFind rest k) = none := h
      by_cases hak : a = k
      · rw [if_pos hak] at hh
        exact Option.noConfusion hh
      · rw [if_neg hak] at hh
        show (if a = k then some b else alistFind (rest ++ m₂) k) = alistFind m₂ k
        rw [if_neg hak]
        exact ih hh

theorem alistFind_append_single_ne {α : Type} (m : AssocList α) (k : String) (v : α)
    (k' : String) (h : k' ≠ k) :
    alistFind (m ++ [(k, v)]) k' = alistFind m k' := by
  induction m with
  | nil =>
      show (if k = k' then some v else none) = none
      rw [if_neg (Ne.symm h)]
  | cons p rest ih =>
      obtain ⟨a, b⟩ := p
      show (if a = k' then some b else alistFind (rest ++ [(k, v)]) k')
        = (if a = k' then some b else alistFind rest k')
      by_cases hak : a = k'
      · rw [if_pos hak, if_pos hak]
      · rw [if_neg hak, if_neg hak, ih]

theorem alistFind_orInsert_self {α : Type} (m : AssocList α) (k : String) (v : α) :
    alistFind (alistOrInsert m k v) k = some ((alistFind m k).getD v) := by
  unfold alistOrInsert alistContains
  cases h : alistFind m k with
  | none =>
      simp only [Option.isSome_none, Option.getD_none, Bool.false_eq_true, if_false]
      rw [alistFind_append_right _ _ _ h]
      show (if k = k then some v else none) = some v
      rw [if_pos rfl]
  | some w =>
      simp only [Option.isSome_some, Option.getD_some, if_true]
      exact h

theorem alistFind_orInsert_ne {α : Type} (m : AssocList α) (k : String) (v : α)
    (k' : String) (h : k' ≠ k) :
    alistFind (alistOrInsert m k v) k' = alistFind m k' := by
  unfold alistOrInsert
  split
  · rfl
  · exact alistFind_append_single_ne m k v k' h

theorem alistFind_insert_cases {α : Type} (m : AssocList α) (k0 : String) (v : α)
    (k : String) (p : α) (h : alistFind (alistInsert m k0 v) k = some p) :
    (k = k0 ∧ p = v) ∨ alistFind m k = some p := by
  by_cases hk : k = k0
  · subst hk
    rw [alistFind_insert_self] at h
    exact Or.inl ⟨rfl, (Option.some.inj h).symm⟩
  · rw [alistFind_insert_ne _ _ _ _ hk] at h
    exact Or.inr h

theorem mem_keys_of_alistFind_some {α : Type} (m : AssocList α) (k : String) (v : α)
    (h : alistFind m k = some v) : k ∈ m.map Prod.fst := by
  induction m with
  | nil => exact Option.noConfusion h
  | cons p rest ih =>
      obtain ⟨a, b⟩ := p
      have hh : (if a = k then some b else alistFind rest k) = some v := h
      by_cases hak : a = k
      · exact List.mem_cons.2 (Or.inl hak.symm)
      · rw [if_neg hak] at hh
        exact List.mem_cons.2 (Or.inr (ih hh))

/-! ### Edge-table lemmas -/

theorem edgeLookup_orInsert_nil (E : AssocList (AssocList ConversionFactor))
    (k a b : String) :
    edgeLookup (alistOrInsert E k []) a b = edgeLookup E a b := by
  unfold edgeLookup
  by_cases hak : a = k
  · subst hak
    rw [alistFind_orInsert_self]
    cases h : alistFind E a with
    | none => simp [alistFind]
    | some inner => simp
  · rw [alistFind_orInsert_ne _ _ _ _ hak]

theorem edgeLookup_insert_inner (E : AssocList (AssocList ConversionFactor))
    (k kb : String) (v : ConversionFactor) (a b : String) :
    edgeLookup (alistInsert E k (alistInsert ((alistFind E k).getD []) kb v)) a b
      = if a = k ∧ b = kb then some v else edgeLookup E a b := by
  unfold edgeLookup
  by_cases hak : a = k
  · subst hak
    rw [alistFind_insert_self, Option.some_bind]
    by_cases hb : b = kb
    · subst hb
      rw [alistFind_insert_self, if_pos (show a = a ∧ b = b from ⟨rfl, rfl⟩)]
    · rw [alistFind_insert_ne _ _ _ _ hb,
        if_neg (show ¬(a = a ∧ b = kb) from fun hc => hb hc.2)]
      cases h : alistFind E a with
      | none => rfl
      | some inner => rfl
  · rw [alistFind_insert_ne _ _ _ _ hak,
      if_neg (show ¬(a = k ∧ b = kb) from fun hc => hak hc.1)]

theorem edgeLookup_insertEdgePair (E : AssocList (AssocList ConversionFactor))
    (cf ct : String) (s o : ℚ) (a b : String) :
    edgeLookup (insertEdgePair E cf ct s o) a b =
      if a = ct ∧ b = cf then some { scale := 1 / s, offset := -o }
      else if a = cf ∧ b = ct then some { scale := s, offset := o }
      else edgeLookup E a b := by
  show edgeLookup
      (alistInsert
        (alistInsert (alistOrInsert (alistOrInsert E cf []) ct [] ) cf
          (alistInsert
            ((alistFind (alistOrInsert (alistOrInsert E cf []) ct []) cf).getD []) ct
            { scale := s, offset := o }))
        ct
        (alistInsert
          ((alistFind
            (alistInsert (alistOrInsert (alistOrInsert E cf []) ct []) cf
              (alistInsert
                ((alistFind (alistOrInsert (alistOrInsert E cf []) ct []) cf).getD [])
                ct { scale := s, offset := o })) ct).getD [])
          cf { scale := 1 / s, offset := -o })) a b = _
  rw [edgeLookup_insert_inner, edgeLookup_insert_inner, edgeLookup_orInsert_nil,
    edgeLookup_orInsert_nil]

/-! ### State lemmas for `add_edge` and `add_unit` -/

theorem add_edge_unfold_ok (g : ConversionGraph) (f t : String) (s o : ℚ)
    (cf ct : String) (hs : ¬s = 0) (hso : ¬(s ≠ 1 ∧ o ≠ 0))
    (hf : alistFind g.aliases_to_name f = some cf)
    (ht : alistFind g.aliases_to_name t = some ct) :
    g.add_edge f t s o =
      (.ok ⟨⟩, { g with edges := insertEdgePair g.edges cf ct s o }) := by
  unfold ConversionGraph.add_edge
  rw [if_neg hs, if_neg hso, hf, ht]

theorem add_edge_cases (g : ConversionGraph) (f t : String) (s o : ℚ) :
    (∃ e, g.add_edge f t s o = (.error e, g)) ∨
    (s ≠ 0 ∧ (s = 1 ∨ o = 0) ∧ ∃ cf ct,
      alistFind g.aliases_to_name f = some cf ∧
      alistFind g.aliases_to_name t = some ct ∧
      g.add_edge f t s o =
        (.ok ⟨⟩, { g with edges := insertEdgePair g.edges cf ct s o })) := by
  by_cases hs : s = 0
  · left
    refine ⟨.ConversionRateZero, ?_⟩
    unfold ConversionGraph.add_edge
    rw [if_pos hs]
  by_cases hso : s ≠ 1 ∧ o ≠ 0
  · left
    refine ⟨.ConversionRateBothValues, ?_⟩
    unfold ConversionGraph.add_edge
    rw [if_neg hs, if_pos hso]
  cases hf : alistFind g.aliases_to_name f with
  | none =>
      left
      refine ⟨.UnitNotFound f, ?_⟩
      unfold ConversionGraph.add_edge
      rw [if_neg hs, if_neg hso, hf]
  | some cf =>
      cases ht : alistFind g.aliases_to_name t with
      | none =>
          left
          refine ⟨.UnitNotFound t, ?_⟩
          unfold ConversionGraph.add_edge
          rw [if_neg hs, if_neg hso, hf, ht]
      | some ct =>
          right
          refine ⟨hs, ?_, cf, ct, rfl, rfl, add_edge_unfold_ok g f t s o cf ct hs hso hf ht⟩
          by_cases h1 : s = 1
          · exact Or.inl h1
          · by_cases h2 : o = 0
            · exact Or.inr h2
            · exact absurd ⟨h1, h2⟩ hso

theorem add_edge_error_unchanged (g : ConversionGraph) (f t : String) (s o : ℚ)
    (e : ConversionError) (h : (g.add_edge f t s o).1 = .error e) :
    (g.add_edge f t s o).2 = g := by
  rcases add_edge_cases g f t s o with ⟨e', heq⟩ | ⟨_, _, cf, ct, _, _, heq⟩
  · rw [heq]
  · rw [heq] at h
    exact Except.noConfusion h

theorem add_edge_aliases_eq (g : ConversionGraph) (f t : String) (s o : ℚ) :
    ((g.add_edge f t s o).2).aliases_to_name = g.aliases_to_name := by
  rcases add_edge_cases g f t s o with ⟨e', heq⟩ | ⟨_, _, cf, ct, _, _, heq⟩
  · rw [heq]
  · rw [heq]

theorem insertAliases_edges_eq (al : List String) :
    ∀ g n, ((insertAliases g n al).2).edges = g.edges := by
  induction al with
  | nil => intro g n; rfl
  | cons a0 rest ih =>
      intro g n
      unfold insertAliases
      split
      · rfl
      · exact ih _ n

theorem add_unit_edges_eq (g : ConversionGraph) (n : String) (al : List String)
    (i : Bool) : ((g.add_unit n al i).2).edges = g.edges := by
  unfold ConversionGraph.add_unit
  split
  · rfl
  split
  · rfl
  split
  · rfl
  split
  · rename_i u hnew r e g' heq
    show g'.edges = g.edges
    have h2 := insertAliases_edges_eq u.aliases g n
    rw [heq] at h2
    exact h2
  · rename_i u hnew r a g' heq
    show g'.edges = g.edges
    have h2 := insertAliases_edges_eq u.aliases g n
    rw [heq] at h2
    exact h2

theorem unit_new_aliases_ne (n : String) (al : List String) (i : Bool)
    (u : Unit) (h : Unit.new n al i = .ok u) :
    ∀ a ∈ u.aliases, a ≠ "" := by
  unfold Unit.new at h
  by_cases hn : n = ""
  · rw [if_pos hn] at h
    exact Except.noConfusion h
  rw [if_neg hn] at h
  by_cases ha : al.any (fun a => a = "") = true
  · rw [if_pos ha] at h
    exact Except.noConfusion h
  rw [if_neg ha] at h
  have hu : u.aliases = if n ∈ al then al else al ++ [n] := by
    have := Except.ok.inj h
    rw [← this]
  have hmem : ∀ a ∈ al, a ≠ "" := by
    intro a hamem hae
    exact ha (List.any_eq_true.2 ⟨a, hamem, by simp [hae]⟩)
  intro a hamem
  rw [hu] at hamem
  by_cases hnin : n ∈ al
  · rw [if_pos hnin] at hamem
    exact hmem a hamem
  · rw [if_neg hnin] at hamem
    rcases List.mem_append.1 hamem with h1 | h1
    · exact hmem a h1
    · rw [List.mem_singleton.1 h1]
      exact hn

theorem insertAliases_find_none (k : String) (al : List String) :
    ∀ g n, (∀ a ∈ al, a ≠ k) → alistFind g.aliases_to_name k = none →
      alistFind ((insertAliases g n al).2).aliases_to_name k = none := by
  induction al with
  | nil => intro g n _ h; exact h
  | cons a0 rest ih =>
      intro g n hal h
      unfold insertAliases
      split
      · exact h
      · refine ih _ n (fun a ha => hal a (List.mem_cons.2 (Or.inr ha))) ?_
        show alistFind (alistInsert g.aliases_to_name a0 n) k = none
        rw [alistFind_insert_ne _ _ _ _
          (Ne.symm (hal a0 (List.mem_cons.2 (Or.inl rfl))))]
        exact h

theorem add_unit_find_empty_none (g : ConversionGraph) (n : String)
    (al : List String) (i : Bool)
    (h : alistFind g.aliases_to_name "" = none) :
    alistFind ((g.add_unit n al i).2).aliases_to_name "" = none := by
  unfold ConversionGraph.add_unit
  split
  · exact h
  split
  · exact h
  split
  · exact h
  split
  · rename_i x u hnew r e g' heq
    show alistFind g'.aliases_to_name "" = none
    have h2 := insertAliases_find_none "" u.aliases g n
      (fun a ha hae => unit_new_aliases_ne n al i u hnew a ha hae) h
    rw [heq] at h2
    exact h2
  · rename_i x u hnew r a g' heq
    show alistFind g'.aliases_to_name "" = none
    have h2 := insertAliases_find_none "" u.aliases g n
      (fun a ha hae => unit_new_aliases_ne n al i u hnew a ha hae) h
    rw [heq] at h2
    exact h2

theorem runOp_find_empty_none (g : ConversionGraph) (op : Op)
    (h : alistFind g.aliases_to_name "" = none) :
    alistFind (runOp g op).aliases_to_name "" = none := by
  cases op with
  | addUnit n a i => exact add_unit_find_empty_none g n a i h
  | addEdge f t s o => rw [show runOp g (.addEdge f t s o) = (g.add_edge f t s o).2 from rfl,
      add_edge_aliases_eq]; exact h
  | addScaleEdge f t s => rw [show runOp g (.addScaleEdge f t s) = (g.add_edge f t s 0).2 from rfl,
      add_edge_aliases_eq]; exact h
  | addOffsetEdge f t o => rw [show runOp g (.addOffsetEdge f t o) = (g.add_edge f t 1 o).2 from rfl,
      add_edge_aliases_eq]; exact h

theorem runOps_find_empty_none (ops : List Op) :
    alistFind (runOps ops).aliases_to_name "" = none := by
  suffices h : ∀ g : ConversionGraph, alistFind g.aliases_to_name "" = none →
      alistFind (ops.foldl runOp g).aliases_to_name "" = none from
    h ConversionGraph.new rfl
  induction ops with
  | nil => intro g h; exact h
  | cons op rest ih =>
      intro g h
      exact ih (runOp g op) (runOp_find_empty_none g op h)

/-! ### Claims C3, C5, C7, C8, C9, C10 -/

/-- Claim C3: unit registration is NOT atomic, contrary to the claim.  After
`add_unit("B", ["y"])` succeeds, `add_unit("A", ["x", "y"])` fails with
`DuplicateAlias("y")`, but it has already inserted the alias `"x"` into the
alias index: `contains_unit("x")` becomes true even though no unit `"A"` is in
the unit table, and the graph state differs from the pre-call state.  This
theorem evaluates the code at that failing input. -/
theorem claim_C3_add_unit_not_atomic :
    ((((ConversionGraph.new.add_unit "B" ["y"] false).2).add_unit
        "A" ["x", "y"] false).1 = .error (.DuplicateAlias "y")) ∧
    ((((ConversionGraph.new.add_unit "B" ["y"] false).2).add_unit
        "A" ["x", "y"] false).2.contains_unit "x" = true) ∧
    (alistContains
        ((((ConversionGraph.new.add_unit "B" ["y"] false).2).add_unit
          "A" ["x", "y"] false).2).name_to_units "A" = false) ∧
    ((((ConversionGraph.new.add_unit "B" ["y"] false).2).add_unit
        "A" ["x", "y"] false).2 ≠ (ConversionGraph.new.add_unit "B" ["y"] false).2) :=
  ⟨rfl, rfl, rfl, by decide⟩

/-- Claim C5: `add_edge` fails with `ConversionRateZero` whenever `scale = 0`,
with `ConversionRateBothValues` whenever `scale ≠ 1` and `offset ≠ 0`
(`scale ≠ 0`), and both checks precede token resolution (the graph is left
unchanged and no token is inspected); only then are tokens resolved, `from`
first, failing with `UnitNotFound` on the unresolvable token. -/
theorem claim_C5_add_edge_error_order (g : ConversionGraph) (f t : String)
    (s o : ℚ) :
    (s = 0 → g.add_edge f t s o = (.error .ConversionRateZero, g)) ∧
    (s ≠ 0 → s ≠ 1 → o ≠ 0 →
      g.add_edge f t s o = (.error .ConversionRateBothValues, g)) ∧
    (s ≠ 0 → (s = 1 ∨ o = 0) → alistFind g.aliases_to_name f = none →
      g.add_edge f t s o = (.error (.UnitNotFound f), g)) ∧
    (∀ cf, s ≠ 0 → (s = 1 ∨ o = 0) → alistFind g.aliases_to_name f = some cf →
      alistFind g.aliases_to_name t = none →
      g.add_edge f t s o = (.error (.UnitNotFound t), g)) := by
  refine ⟨?_, ?_, ?_, ?_⟩
  · intro hs
    unfold ConversionGraph.add_edge
    rw [if_pos hs]
  · intro hs h1 h2
    unfold ConversionGraph.add_edge
    rw [if_neg hs, if_pos ⟨h1, h2⟩]
  · intro hs hso hf
    have hso' : ¬(s ≠ 1 ∧ o ≠ 0) := by
      rcases hso with h1 | h1
      · exact fun hc => hc.1 h1
      · exact fun hc => hc.2 h1
    unfold ConversionGraph.add_edge
    rw [if_neg hs, if_neg hso', hf]
  · intro cf hs hso hf ht
    have hso' : ¬(s ≠ 1 ∧ o ≠ 0) := by
      rcases hso with h1 | h1
      · exact fun hc => hc.1 h1
      · exact fun hc => hc.2 h1
    unfold ConversionGraph.add_edge
    rw [if_neg hs, if_neg hso', hf, ht]

/-- Witness for claim C5 at concrete inputs: a zero scale is rejected with
`ConversionRateZero`, and mixing scale and offset is rejected with
`ConversionRateBothValues`, both on the empty graph where no token resolves. -/
theorem claim_C5_add_edge_error_order_witness :
    ConversionGraph.new.add_edge "a" "b" 0 5
      = (.error .ConversionRateZero, ConversionGraph.new) ∧
    ConversionGraph.new.add_edge "a" "b" 2 5
      = (.error .ConversionRateBothValues, ConversionGraph.new) ∧
    ConversionGraph.new.add_edge "a" "b" 2 0
      = (.error (.UnitNotFound "a"), ConversionGraph.new) :=
  ⟨(claim_C5_add_edge_error_order ConversionGraph.new "a" "b" 0 5).1 rfl,
   (claim_C5_add_edge_error_order ConversionGraph.new "a" "b" 2 5).2.1
     (by norm_num) (by norm_num) (by norm_num),
   (claim_C5_add_edge_error_order ConversionGraph.new "a" "b" 2 0).2.2.1
     (by norm_num) (Or.inr rfl) rfl⟩

/-- Claim C7: whenever both tokens resolve to the same canonical unit,
`convert` returns the value unchanged (the identity short-circuit fires
before any graph traversal and needs no edge). -/
theorem claim_C7_identity_conversion (g : ConversionGraph) (f t u : String)
    (v : ℚ) (hf : alistFind g.aliases_to_name f = some u)
    (ht : alistFind g.aliases_to_name t = some u) :
    g.convert f t v = .ok v := by
  unfold ConversionGraph.convert
  simp only [hf, ht]
  rw [if_pos trivial]

/-- Witness for claim C7: converting from alias `"K"` to canonical name
`"Kelvin"` of the same unit returns the value unchanged, with no edge in the
graph. -/
theorem claim_C7_identity_conversion_witness :
    ((ConversionGraph.new.add_unit "Kelvin" ["K"] false).2).convert
      "K" "Kelvin" 42 = .ok 42 :=
  claim_C7_identity_conversion _ "K" "Kelvin" "Kelvin" 42 rfl rfl

/-- Claim C8: the listing does exclude intermediate units and has one string
per non-intermediate unit, but the claimed format is wrong for a unit with no
aliases beyond its bare name: since the canonical name is always auto-added
to the alias list, the code prints `"Meter (Meter)"` where the claim (and the
function's own doc comment) require just `"Meter"`.  This theorem evaluates
the code at that failing input (and shows the intermediate unit `"Ghost"` is
excluded). -/
theorem claim_C8_units_formatted_divergence :
    (ConversionGraph.new.add_unit "Meter" [] false).2.units_formatted
      = ["Meter (Meter)"] ∧
    (((ConversionGraph.new.add_unit "Meter" [] false).2.add_unit
        "Ghost" [] true).2).units_formatted = ["Meter (Meter)"] :=
  ⟨rfl, rfl⟩

/-- Claim C9: `add_edge` (and its wrappers `add_scale_edge` and
`add_offset_edge`) is atomic on failure: whenever it returns an error, the
whole graph state is unchanged — validation and token resolution happen
before any mutation. -/
theorem claim_C9_add_edge_atomic (g : ConversionGraph) (f t : String)
    (s o : ℚ) (e : ConversionError) :
    ((g.add_edge f t s o).1 = .error e → (g.add_edge f t s o).2 = g) ∧
    ((g.add_scale_edge f t s).1 = .error e → (g.add_scale_edge f t s).2 = g) ∧
    ((g.add_offset_edge f t o).1 = .error e → (g.add_offset_edge f t o).2 = g) :=
  ⟨add_edge_error_unchanged g f t s o e,
   add_edge_error_unchanged g f t s 0 e,
   add_edge_error_unchanged g f t 1 o e⟩

/-- Witness for claim C9: a failing `add_edge` with zero scale leaves the
empty graph unchanged. -/
theorem claim_C9_add_edge_atomic_witness :
    (ConversionGraph.new.add_edge "a" "b" 0 0).2 = ConversionGraph.new :=
  (claim_C9_add_edge_atomic ConversionGraph.new "a" "b" 0 0
    .ConversionRateZero).1 rfl

/-- Claim C10: in every graph reachable through the public operations the
empty string is never a registered alias: `contains_unit ""` is false, and
`convert` with an empty `from` token — or an empty `to` token while `from`
resolves — fails with `UnitNotFound("")`. -/
theorem claim_C10_empty_never_registered (ops : List Op) :
    (runOps ops).contains_unit "" = false ∧
    (∀ t v, (runOps ops).convert "" t v = .error (.UnitNotFound "")) ∧
    (∀ f v cf, alistFind (runOps ops).aliases_to_name f = some cf →
      (runOps ops).convert f "" v = .error (.UnitNotFound "")) := by
  have h := runOps_find_empty_none ops
  refine ⟨?_, ?_, ?_⟩
  · unfold ConversionGraph.contains_unit alistContains
    rw [h]
    rfl
  · intro t v
    unfold ConversionGraph.convert
    rw [h]
  · intro f v cf hf
    unfold ConversionGraph.convert
    rw [hf, h]

/-- Witness for claim C10: after registering `"Kelvin"`, the empty token is
not a unit and converting to it fails with `UnitNotFound("")`. -/
theorem claim_C10_empty_never_registered_witness :
    (runOps [.addUnit "Kelvin" ["K"] false]).contains_unit "" = false ∧
    (runOps [.addUnit "Kelvin" ["K"] false]).convert "K" "" 3
      = .error (.UnitNotFound "") :=
  ⟨(claim_C10_empty_never_registered [.addUnit "Kelvin" ["K"] false]).1,
   (claim_C10_empty_never_registered [.addUnit "Kelvin" ["K"] false]).2.2
     "K" 3 "Kelvin" rfl⟩

/-! ### BFS lemmas -/

theorem processAdj_frozen (cur k : String) (adjs : AssocList ConversionFactor) :
    ∀ q vis par, k ∈ vis →
      k ∈ (processAdj cur adjs q vis par).2.1 ∧
      alistFind (processAdj cur adjs q vis par).2.2 k = alistFind par k := by
  induction adjs with
  | nil => intro q vis par hv; exact ⟨hv, rfl⟩
  | cons p rest ih =>
      obtain ⟨adj, f⟩ := p
      intro q vis par hv
      unfold processAdj
      by_cases hadj : adj ∈ vis
      · rw [if_pos hadj]
        exact ih q vis par hv
      · rw [if_neg hadj]
        have hres := ih (q ++ [adj]) (adj :: vis) (alistInsert par adj cur)
          (List.mem_cons.2 (Or.inr hv))
        refine ⟨hres.1, ?_⟩
        rw [hres.2, alistFind_insert_ne _ _ _ _ (fun hc => hadj (by rw [hc] at hv; exact hv))]

theorem processAdj_sets (cur k : String) (adjs : AssocList ConversionFactor) :
    ∀ q vis par, k ∈ adjs.map Prod.fst → k ∉ vis →
      k ∈ (processAdj cur adjs q vis par).2.1 ∧
      alistFind (processAdj cur adjs q vis par).2.2 k = some cur := by
  induction adjs with
  | nil => intro q vis par hk _; exact absurd hk (List.not_mem_nil k)
  | cons p rest ih =>
      obtain ⟨adj, f⟩ := p
      intro q vis par hk hv
      unfold processAdj
      by_cases hadj : adj ∈ vis
      · rw [if_pos hadj]
        have hk' : k ∈ rest.map Prod.fst := by
          simp only [List.map_cons] at hk
          rcases List.mem_cons.1 hk with h1 | h1
          · exact absurd hadj (h1 ▸ hv)
          · exact h1
        exact ih q vis par hk' hv
      · rw [if_neg hadj]
        by_cases hka : k = adj
        · subst hka
          have hfro := processAdj_frozen cur k rest (q ++ [k]) (k :: vis)
            (alistInsert par k cur) (List.mem_cons.2 (Or.inl rfl))
          refine ⟨hfro.1, ?_⟩
          rw [hfro.2, alistFind_insert_self]
        · have hk' : k ∈ rest.map Prod.fst := by
            simp only [List.map_cons] at hk
            rcases List.mem_cons.1 hk with h1 | h1
            · exact absurd h1 hka
            · exact h1
          have hv' : k ∉ adj :: vis := by
            intro hc
            rcases List.mem_cons.1 hc with h1 | h1
            · exact hka h1
            · exact hv h1
          exact ih (q ++ [adj]) (adj :: vis) (alistInsert par adj cur) hk' hv'

theorem bfsLoop_frozen (E : AssocList (AssocList ConversionFactor)) (t k : String) :
    ∀ fuel q vis par, k ∈ vis →
      alistFind (bfsLoop E t fuel q vis par) k = alistFind par k := by
  intro fuel
  induction fuel with
  | zero => intro q vis par _; rfl
  | succ n ih =>
      intro q vis par hv
      cases q with
      | nil => rfl
      | cons cur rest =>
          by_cases hcur : cur = t
          · simp only [bfsLoop, if_pos hcur]
          · simp only [bfsLoop, if_neg hcur]
            have hfro := processAdj_frozen cur k ((alistFind E cur).getD [])
              rest vis par hv
            rw [ih _ _ _ hfro.1, hfro.2]

theorem processAdj_sound (R : String → Prop) (cur : String)
    (adjs : AssocList ConversionFactor) :
    ∀ q vis par, (∀ x ∈ q, R x) → (∀ x p, alistFind par x = some p → R x) →
      (∀ pr ∈ adjs, R pr.1) →
      ((∀ x ∈ (processAdj cur adjs q vis par).1, R x) ∧
       (∀ x p, alistFind (processAdj cur adjs q vis par).2.2 x = some p → R x)) := by
  induction adjs with
  | nil => intro q vis par hq hpar _; exact ⟨hq, hpar⟩
  | cons p0 rest ih =>
      obtain ⟨adj, f⟩ := p0
      intro q vis par hq hpar hadj
      unfold processAdj
      by_cases hin : adj ∈ vis
      · rw [if_pos hin]
        exact ih q vis par hq hpar (fun pr hpr => hadj pr (List.mem_cons.2 (Or.inr hpr)))
      · rw [if_neg hin]
        refine ih (q ++ [adj]) (adj :: vis) (alistInsert par adj cur) ?_ ?_
          (fun pr hpr => hadj pr (List.mem_cons.2 (Or.inr hpr)))
        · intro x hx
          rcases List.mem_append.1 hx with h1 | h1
          · exact hq x h1
          · rw [List.mem_singleton.1 h1]
            exact hadj (adj, f) (List.mem_cons.2 (Or.inl rfl))
        · intro x p hx
          rcases alistFind_insert_cases par adj cur x p hx with ⟨h1, _⟩ | h1
          · rw [h1]
            exact hadj (adj, f) (List.mem_cons.2 (Or.inl rfl))
          · exact hpar x p h1

theorem bfsLoop_sound (E : AssocList (AssocList ConversionFactor)) (t : String)
    (R : String → Prop) (hR : ∀ a b, R a → Adj E a b → R b) :
    ∀ fuel q vis par, (∀ x ∈ q, R x) → (∀ x p, alistFind par x = some p → R x) →
      ∀ x p, alistFind (bfsLoop E t fuel q vis par) x = some p → R x := by
  intro fuel
  induction fuel with
  | zero => intro q vis par _ hpar; exact hpar
  | succ n ih =>
      intro q vis par hq hpar
      cases q with
      | nil => exact hpar
      | cons cur rest =>
          by_cases hcur : cur = t
          · simp only [bfsLoop, if_pos hcur]
            exact hpar
          · simp only [bfsLoop, if_neg hcur]
            have hsound := processAdj_sound R cur ((alistFind E cur).getD [])
              rest vis par
              (fun x hx => hq x (List.mem_cons.2 (Or.inr hx))) hpar
              (fun pr hpr => hR cur pr.1 (hq cur (List.mem_cons.2 (Or.inl rfl)))
                (List.mem_map_of_mem Prod.fst hpr))
            exact ih _ _ _ hsound.1 hsound.2

theorem bfs_direct (E : AssocList (AssocList ConversionFactor)) (cA cB : String)
    (hne : cA ≠ cB) (hadj : cB ∈ ((alistFind E cA).getD []).map Prod.fst) :
    alistFind (bfsLoop E cB (bfsFuel E) [cA] [cA] []) cB = some cA ∧
    alistFind (bfsLoop E cB (bfsFuel E) [cA] [cA] []) cA = none := by
  rw [show bfsFuel E = (E.foldl (fun n p => n + 1 + p.2.length) 0) + 1 from rfl]
  simp only [bfsLoop, if_neg hne]
  constructor
  · have hsets := processAdj_sets cA cB ((alistFind E cA).getD []) [] [cA] [] hadj
      (fun hc => hne (List.mem_singleton.1 hc).symm)
    rw [bfsLoop_frozen E cB cB _ _ _ _ hsets.1, hsets.2]
  · have hfro := processAdj_frozen cA cA ((alistFind E cA).getD []) [] [cA] []
      (List.mem_cons.2 (Or.inl rfl))
    rw [bfsLoop_frozen E cB cA _ _ _ _ hfro.1, hfro.2]
    rfl

theorem collectFactors_step (E : AssocList (AssocList ConversionFactor))
    (par : AssocList String) (fuel : Nat) (cur parent : String)
    (stack : List ConversionFactor) (f : ConversionFactor)
    (h1 : alistFind par cur = some parent)
    (h2 : edgeLookup E parent cur = some f) :
    collectFactors E par (fuel + 1) cur stack
      = collectFactors E par fuel parent (f :: stack) := by
  simp only [collectFactors, h1, h2]

theorem collectFactors_stop (E : AssocList (AssocList ConversionFactor))
    (par : AssocList String) (fuel : Nat) (cur : String)
    (stack : List ConversionFactor) (h : alistFind par cur = none) :
    collectFactors E par (fuel + 1) cur stack = .ok stack := by
  simp only [collectFactors, h]

theorem convert_direct_edge (g : ConversionGraph) (tA tB cA cB : String)
    (f : ConversionFactor) (x : ℚ)
    (hA : alistFind g.aliases_to_name tA = some cA)
    (hB : alistFind g.aliases_to_name tB = some cB)
    (hne : cA ≠ cB)
    (hE : edgeLookup g.edges cA cB = some f) :
    g.convert tA tB x = .ok (x * f.scale + f.offset) := by
  have hadj : cB ∈ ((alistFind g.edges cA).getD []).map Prod.fst := by
    unfold edgeLookup at hE
    cases hEA : alistFind g.edges cA with
    | none => rw [hEA] at hE; exact Option.noConfusion hE
    | some inner =>
        rw [hEA] at hE
        simp only [Option.some_bind] at hE
        exact mem_keys_of_alistFind_some inner cB f hE
  obtain ⟨hfindB, hfindA⟩ := bfs_direct g.edges cA cB hne hadj
  unfold ConversionGraph.convert
  simp only [hA, hB]
  rw [if_neg hne]
  have hcont : alistContains (bfsLoop g.edges cB (bfsFuel g.edges) [cA] [cA] []) cB
      = true := by
    unfold alistContains
    rw [hfindB]
    rfl
  rw [hcont, if_pos rfl, collectFactors_step g.edges _ _ cB cA [] f hfindB hE]
  have hpos : 0 < (bfsLoop g.edges cB (bfsFuel g.edges) [cA] [cA] []).length := by
    cases hq : bfsLoop g.edges cB (bfsFuel g.edges) [cA] [cA] [] with
    | nil => rw [hq] at hfindB; exact Option.noConfusion hfindB
    | cons a l => exact Nat.succ_pos _
  rw [show (bfsLoop g.edges cB (bfsFuel g.edges) [cA] [cA] []).length
      = ((bfsLoop g.edges cB (bfsFuel g.edges) [cA] [cA] []).length - 1) + 1 from
    (Nat.succ_pred_eq_of_pos hpos).symm]
  rw [collectFactors_stop _ _ _ _ _ hfindA]
  rfl

/-! ### Claims C2, C6, C1 -/

/-- Claim C2: for every graph in which the two tokens resolve to distinct
canonical units and `add_edge(A, B, s, o)` succeeded, converting forward and
then back returns the original value exactly: the direct edge carries
`(s, o)`, the inverse edge `(1/s, −o)`, and the success guards (`s ≠ 0`,
`s = 1 ∨ o = 0`) make them mutually inverse.  (Values are exact rationals,
so the equality is exact rather than up to floating-point tolerance.) -/
theorem claim_C2_roundtrip (g : ConversionGraph) (tA tB cA cB : String)
    (s o x : ℚ)
    (hA : alistFind g.aliases_to_name tA = some cA)
    (hB : alistFind g.aliases_to_name tB = some cB)
    (hne : cA ≠ cB)
    (hok : (g.add_edge tA tB s o).1 = .ok ⟨⟩) :
    ∃ y, ((g.add_edge tA tB s o).2).convert tA tB x = .ok y ∧
         ((g.add_edge tA tB s o).2).convert tB tA y = .ok x := by
  rcases add_edge_cases g tA tB s o with ⟨e, heq⟩ | ⟨hs, hso, cf, ct, hf, ht, heq⟩
  · rw [heq] at hok
    exact Except.noConfusion hok
  · obtain rfl : cA = cf := by rw [hA] at hf; exact Option.some.inj hf
    obtain rfl : cB = ct := by rw [hB] at ht; exact Option.some.inj ht
    have hg2 : (g.add_edge tA tB s o).2
        = { g with edges := insertEdgePair g.edges cA cB s o } := by rw [heq]
    have hAl : ((g.add_edge tA tB s o).2).aliases_to_name = g.aliases_to_name := by
      rw [hg2]
    have hEdges : ((g.add_edge tA tB s o).2).edges
        = insertEdgePair g.edges cA cB s o := by rw [hg2]
    have hEab : edgeLookup ((g.add_edge tA tB s o).2).edges cA cB
        = some { scale := s, offset := o } := by
      rw [hEdges, edgeLookup_insertEdgePair,
        if_neg (show ¬(cA = cB ∧ cB = cA) from fun hc => hne hc.1),
        if_pos (show cA = cA ∧ cB = cB from ⟨rfl, rfl⟩)]
    have hEba : edgeLookup ((g.add_edge tA tB s o).2).edges cB cA
        = some { scale := 1 / s, offset := -o } := by
      rw [hEdges, edgeLookup_insertEdgePair,
        if_pos (show cB = cB ∧ cA = cA from ⟨rfl, rfl⟩)]
    have hd1 : ((g.add_edge tA tB s o).2).convert tA tB x = .ok (x * s + o) :=
      convert_direct_edge ((g.add_edge tA tB s o).2) tA tB cA cB
        { scale := s, offset := o } x
        (by rw [hAl]; exact hA) (by rw [hAl]; exact hB) hne hEab
    have hd2 : ((g.add_edge tA tB s o).2).convert tB tA (x * s + o)
        = .ok ((x * s + o) * (1 / s) + -o) :=
      convert_direct_edge ((g.add_edge tA tB s o).2) tB tA cB cA
        { scale := 1 / s, offset := -o } (x * s + o)
        (by rw [hAl]; exact hB) (by rw [hAl]; exact hA) (Ne.symm hne) hEba
    refine ⟨x * s + o, hd1, ?_⟩
    rw [hd2]
    congr 1
    rcases hso with h1 | h1
    · subst h1
      ring
    · subst h1
      have hr : (x * s + 0) * (1 / s) + -0 = x * (s * (1 / s)) := by ring
      rw [hr, one_div, mul_inv_cancel₀ hs, mul_one]

/-- Witness for claim C2: after `add_edge("A", "B", 2, 0)` on a two-unit
graph, converting 5 from `A` to `B` and back yields 5. -/
theorem claim_C2_roundtrip_witness :
    ∃ y, ((((ConversionGraph.new.add_unit "A" [] false).2.add_unit
          "B" [] false).2.add_edge "A" "B" 2 0).2).convert "A" "B" 5 = .ok y ∧
         ((((ConversionGraph.new.add_unit "A" [] false).2.add_unit
          "B" [] false).2.add_edge "A" "B" 2 0).2).convert "B" "A" y = .ok 5 :=
  claim_C2_roundtrip ((ConversionGraph.new.add_unit "A" [] false).2.add_unit
      "B" [] false).2 "A" "B" "A" "B" 2 0 5 rfl rfl (by decide) (by decide)

/-- Every hop of the edge table leads from a reachable node to a reachable
node, so in the empty edge table reachability collapses to equality. -/
theorem reachable_nil_eq (a b : String) (h : Reachable [] a b) : a = b := by
  induction h with
  | refl => rfl
  | tail hab hAdj ih => exact absurd hAdj (List.not_mem_nil _)

/-- Claim C6: whenever the two tokens resolve to distinct canonical units
with no path of edges between them, `convert` returns (rather than panics)
the error `ConversionPathNotFound` carrying the original tokens. -/
theorem claim_C6_disconnected (g : ConversionGraph) (X Y : String) (v : ℚ)
    (cX cY : String)
    (hX : alistFind g.aliases_to_name X = some cX)
    (hY : alistFind g.aliases_to_name Y = some cY)
    (hne : cX ≠ cY)
    (hnr : ¬ Reachable g.edges cX cY) :
    g.convert X Y v = .error (.ConversionPathNotFound X Y) := by
  unfold ConversionGraph.convert
  simp only [hX, hY]
  rw [if_neg hne]
  have hnone : alistFind (bfsLoop g.edges cY (bfsFuel g.edges) [cX] [cX] []) cY
      = none := by
    cases hq : alistFind (bfsLoop g.edges cY (bfsFuel g.edges) [cX] [cX] []) cY with
    | none => rfl
    | some p =>
        exfalso
        apply hnr
        refine bfsLoop_sound g.edges cY (Reachable g.edges cX)
          (fun a b ha hab => Relation.ReflTransGen.tail ha hab)
          (bfsFuel g.edges) [cX] [cX] [] ?_ ?_ cY p hq
        · intro x hx
          rw [List.mem_singleton.1 hx]
          exact Relation.ReflTransGen.refl
        · intro x p2 h2
          exact Option.noConfusion h2
  have hcont : alistContains (bfsLoop g.edges cY (bfsFuel g.edges) [cX] [cX] []) cY
      = false := by
    unfold alistContains
    rw [hnone]
    rfl
  rw [hcont, if_neg Bool.false_ne_true]

/-- Witness for claim C6: two registered, disconnected units `A` and `C`
produce `ConversionPathNotFound("A", "C")`. -/
theorem claim_C6_disconnected_witness :
    (runOps [.addUnit "A" ["a"] false, .addUnit "C" ["c"] false]).convert "A" "C" 0
      = .error (.ConversionPathNotFound "A" "C") :=
  claim_C6_disconnected
    (runOps [.addUnit "A" ["a"] false, .addUnit "C" ["c"] false])
    "A" "C" 0 "A" "C" rfl rfl (by decide)
    (fun h => by
      rw [show (runOps [.addUnit "A" ["a"] false,
        .addUnit "C" ["c"] false]).edges = [] from rfl] at h
      exact absurd (reachable_nil_eq "A" "C" h) (by decide))

/-- Claim C1: in the three-unit graph with exactly the edges
`A→B = (s1, 0)` (`s1 ≠ 0`) and `B→C = (1, o2)`, the composed conversion
applies the factors in source-to-target order, one `value*scale + offset`
step per hop: `convert(A, C, x) = x*s1 + o2` and
`convert(C, A, y) = (y − o2)/s1`. -/
theorem claim_C1_composed_path (s1 o2 x y : ℚ) (hs1 : s1 ≠ 0) :
    (graphC1 s1 o2).convert "A" "C" x = .ok (x * s1 + o2) ∧
    (graphC1 s1 o2).convert "C" "A" y = .ok ((y - o2) / s1) := by
  have h1 := add_edge_unfold_ok graphC1units "A" "B" s1 0 "A" "B" hs1
    (fun hc => hc.2 rfl) rfl rfl
  have h2 := add_edge_unfold_ok
    { graphC1units with edges := insertEdgePair graphC1units.edges "A" "B" s1 0 }
    "B" "C" 1 o2 "B" "C" (by norm_num) (fun hc => hc.1 rfl) rfl rfl
  have hg : graphC1 s1 o2 =
      { name_to_units :=
          [("A", { name := "A", aliases := ["A"], intermediate := false }),
           ("B", { name := "B", aliases := ["B"], intermediate := false }),
           ("C", { name := "C", aliases := ["C"], intermediate := false })],
        aliases_to_name := [("A", "A"), ("B", "B"), ("C", "C")],
        edges :=
          [("A", [("B", { scale := s1, offset := 0 })]),
           ("B", [("A", { scale := 1 / s1, offset := -0 }),
                  ("C", { scale := 1, offset := o2 })]),
           ("C", [("B", { scale := 1 / 1, offset := -o2 })])] } := by
    unfold graphC1
    rw [h1]
    show ({ graphC1units with
        edges := insertEdgePair graphC1units.edges "A" "B" s1 0 }.add_edge
      "B" "C" 1 o2).2 = _
    rw [h2]
    rfl
  rw [hg]
  constructor
  · show Except.ok ((x * s1 + 0) * 1 + o2) = Except.ok (x * s1 + o2)
    congr 1
    ring
  · show Except.ok ((y * (1 / 1) + -o2) * (1 / s1) + -0) = Except.ok ((y - o2) / s1)
    congr 1
    ring

/-- Witness for claim C1 at `s1 = 2`, `o2 = 3`: `convert(A, C, 1) = 5` and
`convert(C, A, 5) = 1`. -/
theorem claim_C1_composed_path_witness :
    (graphC1 2 3).convert "A" "C" 1 = .ok (1 * 2 + 3) ∧
    (graphC1 2 3).convert "C" "A" 5 = .ok ((5 - 3) / 2) :=
  claim_C1_composed_path 2 3 1 5 (by norm_num)

/-! ### Claim C4 -/

/-- The factor stored on the inverse direction of an edge with factor `f`:
scale `1/f.scale`, offset `−f.offset`. -/
def invFactor (f : ConversionFactor) : ConversionFactor :=
  { scale := 1 / f.scale, offset := -f.offset }

/-- Claim C4, as stated, is false: with the successful calls
`add_unit("A")` then `add_edge("A", "A", 2, 0)` (a self-loop), the second
insert of `add_edge` overwrites the first, leaving the single edge
`A→A = (1/2, 0)` whose required inverse `(1/(1/2), −0) = (2, 0)` is not
present. -/
theorem claim_C4_edge_symmetry_counterexample :
    ¬ (∀ (a b : String) (s o : ℚ),
        edgeLookup (runOps [.addUnit "A" [] false, .addEdge "A" "A" 2 0]).edges a b
          = some { scale := s, offset := o } →
        edgeLookup (runOps [.addUnit "A" [] false, .addEdge "A" "A" 2 0]).edges b a
          = some { scale := 1 / s, offset := -o }) := by
  intro h
  have h1 := h "A" "A" (1 / 2) (-0) rfl
  rw [show edgeLookup
      (runOps [.addUnit "A" [] false, .addEdge "A" "A" 2 0]).edges "A" "A"
        = some { scale := (1 : ℚ) / 2, offset := -(0 : ℚ) } from rfl] at h1
  have h2 : ((1 : ℚ) / 2) = 1 / (1 / 2) :=
    congrArg ConversionFactor.scale (Option.some.inj h1)
  norm_num at h2

/-- One `insertEdgePair` preserves the two-sided inverse invariant between
any two distinct canonical units. -/
theorem edgeInv_insertEdgePair (E : AssocList (AssocList ConversionFactor))
    (cf ct : String) (s o : ℚ)
    (h : ∀ a b, a ≠ b →
      edgeLookup E a b = Option.map invFactor (edgeLookup E b a)) :
    ∀ a b, a ≠ b →
      edgeLookup (insertEdgePair E cf ct s o) a b
        = Option.map invFactor (edgeLookup (insertEdgePair E cf ct s o) b a) := by
  intro a b hne
  rw [edgeLookup_insertEdgePair, edgeLookup_insertEdgePair]
  by_cases h1 : a = ct ∧ b = cf
  · rw [if_pos h1,
      if_neg (show ¬(b = ct ∧ a = cf) from fun hc => hne (hc.2.trans h1.2.symm)),
      if_pos (show b = cf ∧ a = ct from ⟨h1.2, h1.1⟩)]
    rfl
  · rw [if_neg h1]
    by_cases h2 : a = cf ∧ b = ct
    · rw [if_pos h2, if_pos (show b = ct ∧ a = cf from ⟨h2.2, h2.1⟩)]
      show (some { scale := s, offset := o } : Option ConversionFactor)
        = some { scale := 1 / (1 / s), offset := -(-o) }
      rw [one_div_one_div, neg_neg]
    · rw [if_neg h2,
        if_neg (show ¬(b = ct ∧ a = cf) from fun hc => h2 ⟨hc.2, hc.1⟩),
        if_neg (show ¬(b = cf ∧ a = ct) from fun hc => h1 ⟨hc.2, hc.1⟩)]
      exact h a b hne

/-- Every public call preserves the two-sided inverse invariant between any
two distinct canonical units. -/
theorem runOp_edgeInv (g : ConversionGraph) (op : Op)
    (h : ∀ a b, a ≠ b →
      edgeLookup g.edges a b = Option.map invFactor (edgeLookup g.edges b a)) :
    ∀ a b, a ≠ b →
      edgeLookup (runOp g op).edges a b
        = Option.map invFactor (edgeLookup (runOp g op).edges b a) := by
  cases op with
  | addUnit n al i =>
      intro a b hne
      rw [show runOp g (.addUnit n al i) = (g.add_unit n al i).2 from rfl,
        add_unit_edges_eq]
      exact h a b hne
  | addEdge f t s o =>
      intro a b hne
      rw [show runOp g (.addEdge f t s o) = (g.add_edge f t s o).2 from rfl]
      rcases add_edge_cases g f t s o with ⟨e, heq⟩ | ⟨_, _, cf, ct, _, _, heq⟩
      · rw [heq]
        exact h a b hne
      · rw [heq]
        exact edgeInv_insertEdgePair g.edges cf ct s o h a b hne
  | addScaleEdge f t s =>
      intro a b hne
      rw [show runOp g (.addScaleEdge f t s) = (g.add_edge f t s 0).2 from rfl]
      rcases add_edge_cases g f t s 0 with ⟨e, heq⟩ | ⟨_, _, cf, ct, _, _, heq⟩
      · rw [heq]
        exact h a b hne
      · rw [heq]
        exact edgeInv_insertEdgePair g.edges cf ct s 0 h a b hne
  | addOffsetEdge f t o =>
      intro a b hne
      rw [show runOp g (.addOffsetEdge f t o) = (g.add_edge f t 1 o).2 from rfl]
      rcases add_edge_cases g f t 1 o with ⟨e, heq⟩ | ⟨_, _, cf, ct, _, _, heq⟩
      · rw [heq]
        exact h a b hne
      · rw [heq]
        exact edgeInv_insertEdgePair g.edges cf ct 1 o h a b hne

theorem alistFind_isSome_of_mem_keys {α : Type} (m : AssocList α) (k : String)
    (h : k ∈ m.map Prod.fst) : (alistFind m k).isSome = true := by
  induction m with
  | nil => exact absurd h (List.not_mem_nil k)
  | cons p rest ih =>
      obtain ⟨a, b⟩ := p
      show (if a = k then some b else alistFind rest k).isSome = true
      by_cases hak : a = k
      · rw [if_pos hak]
        rfl
      · rw [if_neg hak]
        refine ih ?_
        simp only [List.map_cons] at h
        rcases List.mem_cons.1 h with h1 | h1
        · exact absurd h1.symm hak
        · exact h1

/-- Every BFS hop (`b` is a key of the adjacency row of `a`) corresponds to
an edge-table entry, so the factor of that hop is always present. -/
theorem edgeLookup_isSome_of_adj (E : AssocList (AssocList ConversionFactor))
    (cur b : String) (h : Adj E cur b) : (edgeLookup E cur b).isSome = true := by
  unfold Adj at h
  unfold edgeLookup
  cases hE : alistFind E cur with
  | none =>
      rw [hE] at h
      exact absurd h (List.not_mem_nil b)
  | some inner =>
      rw [hE] at h
      exact alistFind_isSome_of_mem_keys inner b h

theorem processAdj_pairs (P : String → String → Prop) (cur : String)
    (adjs : AssocList ConversionFactor) :
    ∀ q vis par, (∀ x p, alistFind par x = some p → P x p) →
      (∀ pr ∈ adjs, P pr.1 cur) →
      ∀ x p, alistFind (processAdj cur adjs q vis par).2.2 x = some p → P x p := by
  induction adjs with
  | nil => intro q vis par hpar _; exact hpar
  | cons p0 rest ih =>
      obtain ⟨adj, fct⟩ := p0
      intro q vis par hpar hadj
      unfold processAdj
      by_cases hin : adj ∈ vis
      · rw [if_pos hin]
        exact ih q vis par hpar (fun pr hpr => hadj pr (List.mem_cons.2 (Or.inr hpr)))
      · rw [if_neg hin]
        refine ih (q ++ [adj]) (adj :: vis) (alistInsert par adj cur) ?_
          (fun pr hpr => hadj pr (List.mem_cons.2 (Or.inr hpr)))
        intro x p hx
        rcases alistFind_insert_cases par adj cur x p hx with ⟨h1, h2⟩ | h1
        · rw [h1, h2]
          exact hadj (adj, fct) (List.mem_cons.2 (Or.inl rfl))
        · exact hpar x p h1

/-- Every entry `x ↦ p` of the BFS parent table was recorded while scanning
the adjacency row of `p`, so `P x p` holds for any `P` implied by adjacency. -/
theorem bfsLoop_pairs (E : AssocList (AssocList ConversionFactor)) (t : String)
    (P : String → String → Prop)
    (hP : ∀ cur b, Adj E cur b → P b cur) :
    ∀ fuel q vis par, (∀ x p, alistFind par x = some p → P x p) →
      ∀ x p, alistFind (bfsLoop E t fuel q vis par) x = some p → P x p := by
  intro fuel
  induction fuel with
  | zero => intro q vis par hpar; exact hpar
  | succ n ih =>
      intro q vis par hpar
      cases q with
      | nil => exact hpar
      | cons cur rest =>
          by_cases hcur : cur = t
          · simp only [bfsLoop, if_pos hcur]
            exact hpar
          · simp only [bfsLoop, if_neg hcur]
            refine ih _ _ _ ?_
            exact processAdj_pairs P cur ((alistFind E cur).getD []) rest vis par hpar
              (fun pr hpr => hP cur pr.1 (List.mem_map_of_mem Prod.fst hpr))

/-- When every parent-table entry has its hop factor in the edge table, the
parent-chain walk always succeeds — it never reaches the
`MissingConversionFactor` branch. -/
theorem collectFactors_ok (E : AssocList (AssocList ConversionFactor))
    (par : AssocList String)
    (hpairs : ∀ x p, alistFind par x = some p → (edgeLookup E p x).isSome = true) :
    ∀ fuel cur stack, ∃ stack2, collectFactors E par fuel cur stack = .ok stack2 := by
  intro fuel
  induction fuel with
  | zero => intro cur stack; exact ⟨stack, rfl⟩
  | succ n ih =>
      intro cur stack
      cases hfind : alistFind par cur with
      | none => exact ⟨stack, collectFactors_stop E par n cur stack hfind⟩
      | some parent =>
          have hsome := hpairs cur parent hfind
          cases hE : edgeLookup E parent cur with
          | none =>
              rw [hE] at hsome
              exact Bool.noConfusion hsome
          | some fct =>
              rw [collectFactors_step E par n cur parent stack fct hfind hE]
              exact ih parent (fct :: stack)

/-- The traversal part of `convert` (BFS plus parent-chain walk) never
produces `MissingConversionFactor`: each parent entry points along an
adjacency entry of the same, unchanged edge table. -/
theorem convert_tail_no_missing (E : AssocList (AssocList ConversionFactor))
    (f t cf ct : String) (v : ℚ) :
    (if alistContains (bfsLoop E ct (bfsFuel E) [cf] [cf] []) ct then
       match collectFactors E (bfsLoop E ct (bfsFuel E) [cf] [cf] [])
         ((bfsLoop E ct (bfsFuel E) [cf] [cf] []).length + 1) ct [] with
       | .error e => .error e
       | .ok stack => .ok (applyFactors stack v)
     else (.error (.ConversionPathNotFound f t) : Except ConversionError ℚ))
      ≠ .error .MissingConversionFactor := by
  have hpairs : ∀ x p, alistFind (bfsLoop E ct (bfsFuel E) [cf] [cf] []) x = some p →
      (edgeLookup E p x).isSome = true :=
    bfsLoop_pairs E ct (fun x p => (edgeLookup E p x).isSome = true)
      (fun cur b hadj => edgeLookup_isSome_of_adj E cur b hadj)
      (bfsFuel E) [cf] [cf] [] (fun x p h => Option.noConfusion h)
  obtain ⟨stack2, hstack⟩ := collectFactors_ok E
    (bfsLoop E ct (bfsFuel E) [cf] [cf] []) hpairs
    ((bfsLoop E ct (bfsFuel E) [cf] [cf] []).length + 1) ct []
  cases hcont : alistContains (bfsLoop E ct (bfsFuel E) [cf] [cf] []) ct with
  | false =>
      rw [if_neg Bool.false_ne_true]
      exact fun hc => ConversionError.noConfusion (Except.error.inj hc)
  | true =>
      rw [if_pos rfl, hstack]
      exact fun hc => Except.noConfusion hc

/-- `convert` never returns `MissingConversionFactor`, for any graph and any
tokens: the defensive branch of the parent-chain walk is unreachable because
the edge table cannot change between the BFS and the walk. -/
theorem convert_no_missing_factor (g : ConversionGraph) (f t : String) (v : ℚ) :
    g.convert f t v ≠ .error .MissingConversionFactor := by
  unfold ConversionGraph.convert
  split
  · exact fun hc => ConversionError.noConfusion (Except.error.inj hc)
  · split
    · exact fun hc => ConversionError.noConfusion (Except.error.inj hc)
    · split
      · exact fun hc => Except.noConfusion hc
      · exact convert_tail_no_missing g.edges f t _ _ v

/-- Claim C4, amended to distinct canonical units: after any sequence of
public calls, (i) for all canonical units `A ≠ B` the edge `A→B` with factor
`(s, o)` is present exactly when the edge `B→A` with factor `(1/s, −o)` is
present — stated as: the `A→B` entry equals the inverse-mapped `B→A` entry,
so both directions exist with mutually inverse factors or neither exists —
and (ii) the `MissingConversionFactor` branch in `convert` is unreachable:
no `convert` call returns that error.  (The restriction of (i) to `A ≠ B` is
forced by the self-loop counterexample; (ii) holds unrestricted, self-loops
included, because every BFS parent entry follows an adjacency entry of the
same edge table.) -/
theorem claim_C4_edge_symmetry_amended (ops : List Op) :
    (∀ a b, a ≠ b →
      edgeLookup (runOps ops).edges a b
        = Option.map invFactor (edgeLookup (runOps ops).edges b a)) ∧
    (∀ f t v, (runOps ops).convert f t v ≠ .error .MissingConversionFactor) := by
  constructor
  · suffices hsuf : ∀ g : ConversionGraph,
        (∀ a b, a ≠ b →
          edgeLookup g.edges a b = Option.map invFactor (edgeLookup g.edges b a)) →
        ∀ a b, a ≠ b →
          edgeLookup (ops.foldl runOp g).edges a b
            = Option.map invFactor (edgeLookup (ops.foldl runOp g).edges b a) from
      hsuf ConversionGraph.new (fun a b _ => rfl)
    induction ops with
    | nil => intro g h; exact h
    | cons op rest ih =>
        intro g h
        exact ih (runOp g op) (runOp_edgeInv g op h)
  · intro f t v
    exact convert_no_missing_factor (runOps ops) f t v

/-- Witness for the amended claim C4: after `add_edge("A", "B", 2, 0)` the
`A→B` entry is the inverse-map of the `B→A` entry, and converting on that
graph does not return `MissingConversionFactor`. -/
theorem claim_C4_edge_symmetry_amended_witness :
    (edgeLookup (runOps [.addUnit "A" [] false, .addUnit "B" [] false,
        .addEdge "A" "B" 2 0]).edges "A" "B"
      = Option.map invFactor
          (edgeLookup (runOps [.addUnit "A" [] false, .addUnit "B" [] false,
            .addEdge "A" "B" 2 0]).edges "B" "A")) ∧
    (runOps [.addUnit "A" [] false, .addUnit "B" [] false,
        .addEdge "A" "B" 2 0]).convert "A" "B" 5
      ≠ .error .MissingConversionFactor :=
  ⟨(claim_C4_edge_symmetry_amended
      [.addUnit "A" [] false, .addUnit "B" [] false, .addEdge "A" "B" 2 0]).1
      "A" "B" (by decide),
   (claim_C4_edge_symmetry_amended
      [.addUnit "A" [] false, .addUnit "B" [] false, .addEdge "A" "B" 2 0]).2
      "A" "B" 5⟩

end ConversionWiz
